import Mathlib

/-!
Verification of `pkg/labels/cidr/cidr.go` (CIDR label expansion).

This file shallowly embeds the Go source of the `cidr` package: the label
codec `maskedIPToLabel`, the parser `IPStringToLabel`, the expansion entry
point `GetCIDRLabels` with its partial-result cache, and the world-label
selection `addWorldLabel`.

Modelling conventions:
  * `netip.Addr` is modelled as a family tag (v4/v6) plus the address value
    as a natural number (32 or 128 bits).  Masking keeps the top `i` bits.
  * The canonical textual rendering `netip.Addr.String` (Go standard
    library) is reimplemented: dotted quad for IPv4, RFC 5952 lowercase
    hex with longest-zero-run `::` compression for IPv6, and the
    `::ffff:a.b.c.d` form for IPv4-mapped addresses.  IPv6 zones are not
    modelled (they cannot appear in any label produced from a prefix).
  * `netip.ParseAddr` / `netip.ParsePrefix` (Go standard library, external
    to this repository) are modelled after their documented behaviour:
    dotted-quad IPv4 with 1-3 digit octets, no leading zeros, values up
    to 255; IPv6 with 1-4 hex digit fields, at most one `::` standing for
    at least one zero field, optional trailing dotted quad; a prefix is
    split at the last '/', with a decimal length without leading zeros or
    sign, bounded by the address's bit length.
  * Go's `map[string]Label` is modelled as a write log of (key, value)
    pairs; `Labels.lookup` is last-write-wins, `Labels.keyCard` counts the
    distinct keys.  The `simplelru.LRU` cache is a most-recent-first entry
    list: `Get` moves a hit to the front, `Add` inserts at the front and
    truncates to the capacity.
  * The process-wide dual-stack option, the `once` initialiser and the
    mutex are modelled by passing the flag and the cache state explicitly;
    the recursion itself is sequential, exactly as one interleaving-free
    execution of the Go code.
-/

/-- Address family of a `netip.Addr` (IPv4 or IPv6). -/
inductive IPFamily where
  | v4
  | v6
deriving DecidableEq, Repr

/-- Model of `netip.Addr`: family plus the address value as a natural
number (big-endian, 32 bits for v4 and 128 bits for v6). -/
structure Addr where
  family : IPFamily
  val : Nat
deriving DecidableEq, Repr

/-- `netip.Addr.BitLen`: 32 for IPv4, 128 for IPv6. -/
def Addr.bitLen (a : Addr) : Nat :=
  match a.family with
  | .v4 => 32
  | .v6 => 128

/-- `netip.Addr.Is4`. -/
def Addr.Is4 (a : Addr) : Bool :=
  match a.family with
  | .v4 => true
  | .v6 => false

/-- Masking an address to its top `i` bits (host bits below `bitLen - i`
are zeroed), as `netip.Prefix.Masked` does on the address. -/
def Addr.mask (a : Addr) (i : Nat) : Addr :=
  ⟨a.family, a.val / 2 ^ (a.bitLen - i) * 2 ^ (a.bitLen - i)⟩

/-- Model of `netip.Prefix`: an address plus a mask length.  Mirroring
`netip.PrefixFrom`, constructing a value of this type does NOT mask the
address. -/
structure Pfx where
  addr : Addr
  bits : Nat
deriving DecidableEq, Repr

/-- `netip.Prefix.Masked`: the same prefix with the host bits of the
address zeroed. -/
def Pfx.masked (p : Pfx) : Pfx :=
  ⟨p.addr.mask p.bits, p.bits⟩

/-- Decimal digit character (used by the `strconv.Itoa` model). -/
def digitChar (n : Nat) : Char :=
  match n with
  | 0 => '0'
  | 1 => '1'
  | 2 => '2'
  | 3 => '3'
  | 4 => '4'
  | 5 => '5'
  | 6 => '6'
  | 7 => '7'
  | 8 => '8'
  | _ => '9'

/-- Digit list of `n` in base 10, most significant first; structurally
recursive on a fuel bound so that it evaluates in the kernel. -/
def itoaAux : Nat → Nat → List Char
  | 0, _ => []
  | fuel + 1, n => if n = 0 then [] else itoaAux fuel (n / 10) ++ [digitChar (n % 10)]

/-- Model of `strconv.Itoa` on natural numbers. -/
def itoa (n : Nat) : String :=
  if n = 0 then "0" else ⟨itoaAux n n⟩

/-- Lowercase hexadecimal digit character. -/
def hexChar (n : Nat) : Char :=
  match n with
  | 0 => '0'
  | 1 => '1'
  | 2 => '2'
  | 3 => '3'
  | 4 => '4'
  | 5 => '5'
  | 6 => '6'
  | 7 => '7'
  | 8 => '8'
  | 9 => '9'
  | 10 => 'a'
  | 11 => 'b'
  | 12 => 'c'
  | 13 => 'd'
  | 14 => 'e'
  | _ => 'f'

/-- Hex digit list of `n`, most significant first, fuel-bounded. -/
def hexAux : Nat → Nat → List Char
  | 0, _ => []
  | fuel + 1, n => if n = 0 then [] else hexAux fuel (n / 16) ++ [hexChar (n % 16)]

/-- Minimal lowercase hexadecimal rendering of a 16-bit group, as Go's
`appendHex` produces inside `netip.Addr.String`. -/
def hexStr (n : Nat) : List Char :=
  if n = 0 then ['0'] else hexAux n n

/-- Dotted-quad character rendering of a 32-bit IPv4 value, as
`netip.Addr.String` produces for IPv4 addresses. -/
def v4Chars (val : Nat) : List Char :=
  (itoa (val / 2 ^ 24 % 256)).data ++ '.' :: (itoa (val / 2 ^ 16 % 256)).data
    ++ '.' :: (itoa (val / 2 ^ 8 % 256)).data ++ '.' :: (itoa (val % 256)).data

/-- The `i`-th (big-endian) 16-bit group of a 128-bit IPv6 value. -/
def v6Group (val i : Nat) : Nat :=
  val / 2 ^ (16 * (7 - i)) % 65536

/-- First index `j ≥ i` with a non-zero group, capped at 8; the end of the
zero-group run starting at `i` in Go's `appendTo6` scan. -/
def zeroRunEnd (val i : Nat) : Nat :=
  ((List.range' i (8 - i)).find? (fun j => decide (v6Group val j ≠ 0))).getD 8

/-- The longest run (leftmost on ties, length at least 2) of zero 16-bit
groups, as scanned by Go's `netip.Addr.appendTo6`; `none` when no run of
length at least 2 exists. -/
def bestZeroRun (val : Nat) : Option (Nat × Nat) :=
  (List.range 8).foldl
    (fun best i =>
      let j := zeroRunEnd val i
      if 2 ≤ j - i ∧ (match best with | none => 0 | some se => se.2 - se.1) < j - i then
        some (i, j)
      else best)
    none

/-- Join character lists with a separator character. -/
def interc (sep : Char) : List (List Char) → List Char
  | [] => []
  | [x] => x
  | x :: xs => x ++ sep :: interc sep xs

/-- RFC 5952 rendering of a (non-IPv4-mapped) IPv6 value: hex groups
joined by ':', with the best zero run compressed to a double colon. -/
def v6Chars (val : Nat) : List Char :=
  match bestZeroRun val with
  | none => interc ':' ((List.range 8).map (fun i => hexStr (v6Group val i)))
  | some se =>
      interc ':' ((List.range se.1).map (fun i => hexStr (v6Group val i)))
        ++ ':' :: ':' ::
          interc ':' ((List.range' se.2 (8 - se.2)).map (fun i => hexStr (v6Group val i)))

/-- Model of `netip.Addr.String` (Go standard library): dotted quad for
IPv4, `::ffff:a.b.c.d` for IPv4-mapped IPv6, RFC 5952 otherwise. -/
def Addr.String (a : Addr) : String :=
  match a.family with
  | .v4 => ⟨v4Chars a.val⟩
  | .v6 =>
      if a.val / 2 ^ 32 = 65535 then
        ⟨':' :: ':' :: 'f' :: 'f' :: 'f' :: 'f' :: ':' :: v4Chars (a.val % 2 ^ 32)⟩
      else ⟨v6Chars a.val⟩

/-- Modelled from the spec: the label record of the external `labels`
package (`pkg/labels`, outside `src/`): a key/source string pair. -/
structure Label where
  key : String
  source : String
deriving DecidableEq, Repr

/-- Modelled from the spec: `labels.LabelSourceCIDR`, the source of all
prefix-derived labels. -/
def LabelSourceCIDR : String := "cidr"

/-- Modelled from the spec: `labels.LabelSourceReserved`, the source of
the world labels. -/
def LabelSourceReserved : String := "reserved"

/-- Modelled from the spec: `labels.IDNameWorld` = "world". -/
def IDNameWorld : String := "world"

/-- Modelled from the spec: `labels.IDNameWorldIPv4` = "world-ipv4". -/
def IDNameWorldIPv4 : String := "world-ipv4"

/-- Modelled from the spec: `labels.IDNameWorldIPv6` = "world-ipv6". -/
def IDNameWorldIPv6 : String := "world-ipv6"

/-- Modelled from the spec: `labels.Labels` is Go's `map[string]Label`.
The map is modelled by its write log (oldest first); the mapping it
denotes is given by `Labels.lookup` (last write wins). -/
abbrev Labels := List (String × Label)

/-- A map write `lbls[k] = v`. -/
def Labels.set (m : Labels) (k : String) (v : Label) : Labels :=
  m ++ [(k, v)]

/-- The mapping denoted by a write log: the value of the last write at
key `k`, if any. -/
def Labels.lookup (m : Labels) (k : String) : Option Label :=
  m.foldl (fun acc e => if e.1 = k then some e.2 else acc) none

/-- The number of distinct keys in the map. -/
def Labels.keyCard (m : Labels) : Nat :=
  (m.map Prod.fst).toFinset.card

/-- The LRU cache `cidrLabelsCache` of partial results, keyed by prefix,
most recently used entry first. -/
abbrev Cache := List (Pfx × List Label)

/-- The value stored in the cache at key `k`, if any. -/
def Cache.lookup (c : Cache) (k : Pfx) : Option (List Label) :=
  (c.find? (fun e => decide (e.1 = k))).map (·.2)

/-- `cidrLabelsCacheMaxSize` from the source: the LRU capacity. -/
def cidrLabelsCacheMaxSize : Nat := 16384

/-- `simplelru.LRU.Get`: returns the value at `k` and moves the entry to
the most-recently-used position; a miss leaves the cache unchanged. -/
def Cache.get (c : Cache) (k : Pfx) : Option (List Label) × Cache :=
  match c.find? (fun e => decide (e.1 = k)) with
  | none => (none, c)
  | some e => (some e.2, e :: c.eraseP (fun x => decide (x.1 = k)))

/-- `simplelru.LRU.Add`: inserts (or updates and refreshes) `k ↦ v` at
the most-recently-used position, evicting the least recently used entry
when the capacity is exceeded. -/
def Cache.add (c : Cache) (k : Pfx) (v : List Label) : Cache :=
  ((k, v) :: c.eraseP (fun x => decide (x.1 = k))).take cidrLabelsCacheMaxSize

/-- `maskedIPToLabel` (cidr.go:25-54): serialize an IP + prefix length
into a CIDR label.  ':' becomes '-', and a '0' is prepended/appended when
the string would start/end with '-'. -/
def maskedIPToLabel (ip : Addr) (pfx : Nat) : Label :=
  let ipStr := Addr.String ip
  let ipNoColons : String := ⟨ipStr.data.map (fun c => if c = ':' then '-' else c)⟩
  let preZero : String := if ipNoColons.data.head? = some '-' then "0" else ""
  let postZero : String := if ipNoColons.data.getLast? = some '-' then "0" else ""
  { key := preZero ++ ipNoColons ++ postZero ++ "/" ++ itoa pfx,
    source := LabelSourceCIDR }

/-- `worldLabelNonDualStack` (cidr.go:148). -/
def worldLabelNonDualStack : Label := ⟨IDNameWorld, LabelSourceReserved⟩

/-- `worldLabelV4` (cidr.go:149). -/
def worldLabelV4 : Label := ⟨IDNameWorldIPv4, LabelSourceReserved⟩

/-- `worldLabelV6` (cidr.go:150). -/
def worldLabelV6 : Label := ⟨IDNameWorldIPv6, LabelSourceReserved⟩

/-- `addWorldLabel` (cidr.go:134-143); the process-wide
`option.Config.IsDualStack()` is passed as the `isDualStack` argument. -/
def addWorldLabel (isDualStack : Bool) (addr : Addr) (lbls : Labels) : Labels :=
  if isDualStack = false then
    Labels.set lbls worldLabelNonDualStack.key worldLabelNonDualStack
  else if addr.Is4 then
    Labels.set lbls worldLabelV4.key worldLabelV4
  else
    Labels.set lbls worldLabelV6.key worldLabelV6

/-- `computeCIDRLabels` (cidr.go:153-192).  The cache is threaded
explicitly; the triple returned is (cache, lbls, results). -/
def computeCIDRLabels (cache : Cache) (lbls : Labels) (results : List Label)
    (addr : Addr) (ones i : Nat) : Cache × Labels × List Label :=
  if h : i > ones then (cache, lbls, results)
  else
    let pfx : Pfx := ⟨addr, i⟩
    match Cache.get cache pfx with
    | (some cachedLbls, cache') =>
        let lbls' := cachedLbls.foldl (fun m lbl => Labels.set m lbl.key lbl) lbls
        if results.isEmpty then (cache', lbls', cachedLbls)
        else (cache', lbls', results ++ cachedLbls)
    | (none, cache') =>
        let pfxLabel := maskedIPToLabel (Pfx.masked pfx).addr i
        let lbls' := Labels.set lbls pfxLabel.key pfxLabel
        let r := computeCIDRLabels cache' lbls' (results ++ [pfxLabel]) addr ones (i + 1)
        let cache'' := Cache.add r.1 pfx (r.2.2.drop i)
        (cache'', r.2.1, r.2.2)
termination_by ones + 1 - i
decreasing_by omega

/-- `GetCIDRLabels` (cidr.go:87-117).  The global cache and the
dual-stack flag are explicit; the pair returned is (cache, labels). -/
def GetCIDRLabels (isDualStack : Bool) (cache : Cache) (p : Pfx) : Cache × Labels :=
  let addr := p.addr
  let ones := p.bits
  let lbls : Labels := []
  if ones = 0 then
    (cache, addWorldLabel isDualStack addr lbls)
  else
    let r := computeCIDRLabels cache lbls [] addr ones 0
    (r.1, addWorldLabel isDualStack addr r.2.1)

/-- Parse error of `IPStringToLabel`; each constructor carries the
offending input that the Go error message quotes. -/
inductive ParseError where
  | notAnAddress (input : String)
  | notACIDR (input : String)
deriving DecidableEq, Repr

/-- Decimal value of a digit list (most significant first). -/
def atoi (l : List Char) : Nat :=
  l.foldl (fun a c => a * 10 + (c.toNat - 48)) 0

/-- Split a character list at every occurrence of a separator character
(the semantics of `strings.Split` for a one-character separator),
structurally recursive so it evaluates in the kernel. -/
def splitOnChar (sep : Char) : List Char → List (List Char)
  | [] => [[]]
  | c :: cs =>
      match splitOnChar sep cs with
      | [] => if c = sep then [[], []] else [[c]]
      | x :: xs => if c = sep then [] :: x :: xs else (c :: x) :: xs

/-- Split a character list at every (non-overlapping, leftmost-first)
occurrence of a double colon. -/
def splitOnColonColon : List Char → List (List Char)
  | [] => [[]]
  | ':' :: ':' :: rest => [] :: splitOnColonColon rest
  | c :: rest =>
      match splitOnColonColon rest with
      | [] => [[c]]
      | x :: xs => (c :: x) :: xs

/-- A valid IPv4 octet field: 1-3 digits, no leading zero, value ≤ 255. -/
def okOctet (p : List Char) : Bool :=
  decide (p ≠ []) && p.all (fun c => c.isDigit)
    && (decide (p.length = 1) || decide (p.head? ≠ some '0'))
    && decide (atoi p ≤ 255)

/-- Modelled from the spec: the IPv4 part of the Go standard library
`netip.ParseAddr` (external to this repository). -/
def parseV4 (s : String) : Option Addr :=
  match splitOnChar '.' s.data with
  | [a, b, c, d] =>
      if okOctet a && okOctet b && okOctet c && okOctet d then
        some ⟨.v4, ((atoi a * 256 + atoi b) * 256 + atoi c) * 256 + atoi d⟩
      else none
  | _ => none

/-- Hexadecimal digit test (both cases, as Go accepts). -/
def isHexDigitCh (c : Char) : Bool :=
  c.isDigit || (97 ≤ c.toNat && c.toNat ≤ 102) || (65 ≤ c.toNat && c.toNat ≤ 70)

/-- Value of a hexadecimal digit character. -/
def hexv (c : Char) : Nat :=
  if c.toNat ≤ 57 then c.toNat - 48 else if c.toNat ≤ 70 then c.toNat - 55 else c.toNat - 87

/-- A valid IPv6 hex field: 1-4 hex digits. -/
def okHexField (p : List Char) : Bool :=
  decide (p ≠ []) && decide (p.length ≤ 4) && p.all isHexDigitCh

/-- Value of a hex field. -/
def hexFieldVal (p : List Char) : Nat :=
  p.foldl (fun a c => a * 16 + hexv c) 0

/-- Hex-only colon-separated group list (the part left of a `::`). -/
def parseGroupsNoV4 (l : List Char) : Option (List Nat) :=
  if l = [] then some []
  else
    let ps := splitOnChar ':' l
    if ps.all okHexField then some (ps.map hexFieldVal) else none

/-- Colon-separated group list whose last field may be a dotted quad
standing for two groups (the tail of an IPv6 literal). -/
def parseGroupsTail (l : List Char) : Option (List Nat) :=
  if l = [] then some []
  else
    let ps := splitOnChar ':' l
    match ps.getLast? with
    | none => none
    | some last =>
        if ps.dropLast.all okHexField then
          if okHexField last then some (ps.map hexFieldVal)
          else
            match parseV4 ⟨last⟩ with
            | some a => some (ps.dropLast.map hexFieldVal ++ [a.val / 65536, a.val % 65536])
            | none => none
        else none

/-- 128-bit value of eight 16-bit groups. -/
def groupsVal (gs : List Nat) : Nat :=
  gs.foldl (fun a g => a * 65536 + g) 0

/-- Modelled from the spec: the IPv6 part of the Go standard library
`netip.ParseAddr` (external to this repository); zones are not
modelled. -/
def parseV6 (s : String) : Option Addr :=
  match splitOnColonColon s.data with
  | [whole] =>
      match parseGroupsTail whole with
      | some gs => if gs.length = 8 then some ⟨.v6, groupsVal gs⟩ else none
      | none => none
  | [l, r] =>
      match parseGroupsNoV4 l, parseGroupsTail r with
      | some gl, some gr =>
          if gl.length + gr.length ≤ 7 then
            some ⟨.v6, groupsVal (gl ++ List.replicate (8 - gl.length - gr.length) 0 ++ gr)⟩
          else none
      | _, _ => none
  | _ => none

/-- Modelled from the spec: Go standard library `netip.ParseAddr`
(external to this repository).  Go dispatches on the first of '.'/':',
which agrees with testing for ':' first. -/
def parseAddr (s : String) : Option Addr :=
  if s.data.contains ':' then parseV6 s
  else if s.data.contains '.' then parseV4 s
  else none

/-- A valid prefix length field: digits only, no leading zero, no sign,
value bounded by the address bit length. -/
def okBits (p : List Char) (maxBits : Nat) : Bool :=
  decide (p ≠ []) && p.all (fun c => c.isDigit)
    && (decide (p.length = 1) || decide (p.head? ≠ some '0'))
    && decide (atoi p ≤ maxBits)

/-- Modelled from the spec: Go standard library `netip.ParsePrefix`
(external to this repository): split at the last '/', parse the address,
then the decimal length. -/
def parsePfx (s : String) : Option Pfx :=
  let ps := splitOnChar '/' s.data
  if ps.length ≤ 1 then none
  else
    match ps.getLast? with
    | none => none
    | some bitsStr =>
        match parseAddr ⟨interc '/' ps.dropLast⟩ with
        | none => none
        | some a => if okBits bitsStr a.bitLen then some ⟨a, atoi bitsStr⟩ else none

/-- `IPStringToLabel` (cidr.go:59-76): parse a string into a CIDR label.
The Go `error` results are modelled by `ParseError` values that carry the
offending input (which the Go message quotes verbatim). -/
def IPStringToLabel (ip : String) : Except ParseError Label :=
  if ip.data.contains '/' = false then
    match parseAddr ip with
    | none => .error (.notAnAddress ip)
    | some parsedIP => .ok (maskedIPToLabel parsedIP parsedIP.bitLen)
  else
    match parsePfx ip with
    | none => .error (.notACIDR ip)
    | some parsed => .ok (maskedIPToLabel (Pfx.masked parsed).addr parsed.bits)

/-- The colon-to-hyphen-rewritten rendering of an address (the
`ipNoColons` intermediate of `maskedIPToLabel`). -/
def noColonChars (ip : Addr) : List Char :=
  (Addr.String ip).data.map (fun c => if c = ':' then '-' else c)

/-- The part of a label key before the final '/': the hyphen-guarded
address rendering. -/
def stemOf (ip : Addr) : List Char :=
  (if (noColonChars ip).head? = some '-' then ['0'] else [])
    ++ noColonChars ip
    ++ (if (noColonChars ip).getLast? = some '-' then ['0'] else [])

/-- The label computed by `computeCIDRLabels` at recursion depth `j`:
the label of the original address masked down to length `j` (line 175 of
the source: `maskedIPToLabel(prefix.Masked().Addr(), i)`). -/
def chainLabel (addr : Addr) (j : Nat) : Label :=
  maskedIPToLabel (addr.mask j) j

/-- The chain labels for mask lengths `i, i+1, …, ones`. -/
def chainFrom (addr : Addr) (ones i : Nat) : List Label :=
  (List.range' i (ones + 1 - i)).map (chainLabel addr)

/-- The map writes `lbls[l.key] = l` for a list of labels. -/
def labelWrites (ls : List Label) : Labels :=
  ls.map (fun l => (l.key, l))

/-- The world label `addWorldLabel` selects: `worldLabelNonDualStack`
when dual-stack is off, else `worldLabelV4` for IPv4 addresses, else
`worldLabelV6`. -/
def worldLabelFor (isDualStack : Bool) (a : Addr) : Label :=
  if isDualStack = false then worldLabelNonDualStack
  else if a.Is4 then worldLabelV4
  else worldLabelV6

/-- Invariant of reachable cache states used for the world-label claim:
every label stored in the cache is a chain label, whose key contains a
'/'. -/
def CacheInv (c : Cache) : Prop :=
  ∀ e ∈ c, ∀ l ∈ e.2, '/' ∈ l.key.data

/-! ### Basic properties of the digit renderings -/

theorem digitChar_range (n : Nat) :
    48 ≤ (digitChar n).toNat ∧ (digitChar n).toNat ≤ 57 := by
  unfold digitChar
  split <;> decide

theorem digitChar_toNat (n : Nat) (h : n < 10) : (digitChar n).toNat = 48 + n := by
  interval_cases n <;> rfl

theorem itoaAux_mem_range {fuel n : Nat} {c : Char}
    (hc : c ∈ itoaAux fuel n) : 48 ≤ c.toNat ∧ c.toNat ≤ 57 := by
  induction fuel generalizing n with
  | zero => simp [itoaAux] at hc
  | succ fuel ih =>
      unfold itoaAux at hc
      split at hc
      · simp at hc
      · rcases List.mem_append.1 hc with h | h
        · exact ih h
        · simp at h
          subst h
          exact digitChar_range _

theorem itoa_mem_range {n : Nat} {c : Char}
    (hc : c ∈ (itoa n).data) : 48 ≤ c.toNat ∧ c.toNat ≤ 57 := by
  unfold itoa at hc
  split at hc
  · simp_all [show ("0" : String).data = ['0'] from rfl]
  · exact itoaAux_mem_range hc

theorem atoi_append (l : List Char) (c : Char) :
    atoi (l ++ [c]) = atoi l * 10 + (c.toNat - 48) := by
  simp [atoi, List.foldl_append]

theorem itoaAux_atoi : ∀ fuel n, n ≤ fuel → atoi (itoaAux fuel n) = n := by
  intro fuel
  induction fuel with
  | zero =>
      intro n hn
      interval_cases n
      rfl
  | succ fuel ih =>
      intro n hn
      unfold itoaAux
      split
      · simp_all [atoi]
      · rename_i h0
        rw [atoi_append, ih (n / 10) (by omega)]
        have h10 : n % 10 < 10 := Nat.mod_lt _ (by omega)
        rw [digitChar_toNat _ h10]
        omega

theorem atoi_itoa (n : Nat) : atoi (itoa n).data = n := by
  unfold itoa
  split
  · simp_all [show ("0" : String).data = ['0'] from rfl, atoi]
  · exact itoaAux_atoi n n le_rfl

theorem itoa_injective : Function.Injective itoa := by
  intro a b h
  have ha := atoi_itoa a
  rw [h, atoi_itoa b] at ha
  exact ha.symm

theorem itoa_getLast_digit (n : Nat) :
    ∃ d, (itoa n).data.getLast? = some d ∧ 48 ≤ d.toNat ∧ d.toNat ≤ 57 := by
  unfold itoa
  split
  · exact ⟨'0', rfl, by decide, by decide⟩
  · rename_i h0
    show ∃ d, (itoaAux n n).getLast? = some d ∧ _
    obtain ⟨fuel, hf⟩ : ∃ fuel, n = fuel + 1 := ⟨n - 1, by omega⟩
    rw [hf]
    unfold itoaAux
    rw [if_neg (by omega)]
    exact ⟨digitChar ((fuel + 1) % 10), List.getLast?_concat _, digitChar_range _⟩

/-! ### Character sets of the address renderings -/

theorem hexChar_ne_slash (n : Nat) : hexChar n ≠ '/' := by
  unfold hexChar
  split <;> decide

theorem hexAux_ne_slash {fuel n : Nat} {c : Char} (hc : c ∈ hexAux fuel n) : c ≠ '/' := by
  induction fuel generalizing n with
  | zero => simp [hexAux] at hc
  | succ fuel ih =>
      unfold hexAux at hc
      split at hc
      · simp at hc
      · rcases List.mem_append.1 hc with h | h
        · exact ih h
        · simp at h
          subst h
          exact hexChar_ne_slash _

theorem hexStr_ne_slash {n : Nat} {c : Char} (hc : c ∈ hexStr n) : c ≠ '/' := by
  unfold hexStr at hc
  split at hc
  · simp at hc
    subst hc
    decide
  · exact hexAux_ne_slash hc

theorem itoa_data_ne_slash {n : Nat} {c : Char} (hc : c ∈ (itoa n).data) : c ≠ '/' := by
  have h := itoa_mem_range hc
  intro he
  subst he
  rw [show ('/' : Char).toNat = 47 from rfl] at h
  omega

theorem v4Chars_ne_slash {val : Nat} {c : Char} (hc : c ∈ v4Chars val) : c ≠ '/' := by
  unfold v4Chars at hc
  rcases List.mem_append.1 hc with h | h
  · rcases List.mem_append.1 h with h | h
    · rcases List.mem_append.1 h with h | h
      · exact itoa_data_ne_slash h
      · rcases List.mem_cons.1 h with rfl | h
        · decide
        · exact itoa_data_ne_slash h
    · rcases List.mem_cons.1 h with rfl | h
      · decide
      · exact itoa_data_ne_slash h
  · rcases List.mem_cons.1 h with rfl | h
    · decide
    · exact itoa_data_ne_slash h

theorem interc_mem {sep : Char} {c : Char} :
    ∀ {l : List (List Char)}, c ∈ interc sep l → c = sep ∨ ∃ x ∈ l, c ∈ x := by
  intro l
  induction l with
  | nil => intro h; simp [interc] at h
  | cons x xs ih =>
      intro h
      cases xs with
      | nil =>
          simp only [interc] at h
          exact Or.inr ⟨x, by simp, h⟩
      | cons y ys =>
          simp only [interc, List.mem_append, List.mem_cons] at h
          rcases h with h | h | h
          · exact Or.inr ⟨x, by simp, h⟩
          · exact Or.inl h
          · rcases ih h with h' | ⟨z, hz, hc⟩
            · exact Or.inl h'
            · exact Or.inr ⟨z, by simp [hz], hc⟩

theorem v6Chars_ne_slash {val : Nat} {c : Char} (hc : c ∈ v6Chars val) : c ≠ '/' := by
  unfold v6Chars at hc
  split at hc
  · rcases interc_mem hc with h | ⟨x, hx, hcx⟩
    · subst h; decide
    · simp only [List.mem_map] at hx
      obtain ⟨i, _, rfl⟩ := hx
      exact hexStr_ne_slash hcx
  · rcases List.mem_append.1 hc with h | h
    · rcases interc_mem h with h' | ⟨x, hx, hcx⟩
      · subst h'; decide
      · simp only [List.mem_map] at hx
        obtain ⟨i, _, rfl⟩ := hx
        exact hexStr_ne_slash hcx
    rcases List.mem_cons.1 h with rfl | h
    · decide
    rcases List.mem_cons.1 h with rfl | h
    · decide
    rcases interc_mem h with h' | ⟨x, hx, hcx⟩
    · subst h'; decide
    · simp only [List.mem_map] at hx
      obtain ⟨i, _, rfl⟩ := hx
      exact hexStr_ne_slash hcx

theorem Addr.String_ne_slash {a : Addr} {c : Char} (hc : c ∈ (Addr.String a).data) :
    c ≠ '/' := by
  unfold Addr.String at hc
  split at hc
  · exact v4Chars_ne_slash hc
  · split at hc
    · simp only [List.mem_cons] at hc
      rcases hc with rfl | rfl | rfl | rfl | rfl | rfl | rfl | h
      · decide
      · decide
      · decide
      · decide
      · decide
      · decide
      · decide
      · exact v4Chars_ne_slash h
    · exact v6Chars_ne_slash hc

/-! ### Structure of label keys -/

theorem maskedIPToLabel_key_data (ip : Addr) (pfx : Nat) :
    (maskedIPToLabel ip pfx).key.data = stemOf ip ++ '/' :: (itoa pfx).data := by
  unfold maskedIPToLabel stemOf noColonChars
  simp only [String.data_append, apply_ite String.data,
    show ("0" : String).data = ['0'] from rfl, show ("" : String).data = [] from rfl,
    show ("/" : String).data = ['/'] from rfl, List.append_assoc, List.singleton_append]

theorem maskedIPToLabel_source (ip : Addr) (pfx : Nat) :
    (maskedIPToLabel ip pfx).source = LabelSourceCIDR := rfl

theorem stemOf_ne_slash {ip : Addr} {c : Char} (hc : c ∈ stemOf ip) : c ≠ '/' := by
  unfold stemOf at hc
  rcases List.mem_append.1 hc with h | h
  · rcases List.mem_append.1 h with h | h
    · split at h <;> simp_all
    · simp only [noColonChars, List.mem_map] at h
      obtain ⟨c', hc', rfl⟩ := h
      split
      · decide
      · exact Addr.String_ne_slash hc'
  · split at h <;> simp_all

theorem slash_mem_key (ip : Addr) (pfx : Nat) :
    '/' ∈ (maskedIPToLabel ip pfx).key.data := by
  rw [maskedIPToLabel_key_data]
  exact List.mem_append.2 (Or.inr (List.mem_cons.2 (Or.inl rfl)))

theorem append_slash_cancel :
    ∀ (p q b b' : List Char), (∀ c ∈ p, c ≠ '/') → (∀ c ∈ q, c ≠ '/') →
      p ++ '/' :: b = q ++ '/' :: b' → b = b' := by
  intro p
  induction p with
  | nil =>
      intro q b b' _ hq h
      cases q with
      | nil => simpa using h
      | cons x xs =>
          simp only [List.nil_append, List.cons_append, List.cons.injEq] at h
          exact absurd h.1.symm (hq x (by simp))
  | cons x xs ih =>
      intro q b b' hp hq h
      cases q with
      | nil =>
          simp only [List.cons_append, List.nil_append, List.cons.injEq] at h
          exact absurd h.1 (hp x (by simp))
      | cons y ys =>
          simp only [List.cons_append, List.cons.injEq] at h
          exact ih ys b b' (fun c hc => hp c (by simp [hc])) (fun c hc => hq c (by simp [hc]))
            (by rw [h.2])

theorem maskedIPToLabel_key_inj {a b : Addr} {m n : Nat}
    (h : (maskedIPToLabel a m).key = (maskedIPToLabel b n).key) : m = n := by
  have hd : (maskedIPToLabel a m).key.data = (maskedIPToLabel b n).key.data := by rw [h]
  rw [maskedIPToLabel_key_data, maskedIPToLabel_key_data] at hd
  have := append_slash_cancel (stemOf a) (stemOf b) (itoa m).data (itoa n).data
    (fun c hc => stemOf_ne_slash hc) (fun c hc => stemOf_ne_slash hc) hd
  exact itoa_injective (String.ext this)

/-! ### Lookup lemmas for the label map model -/

theorem Labels.lookup_nil (q : String) : Labels.lookup [] q = none := rfl

theorem Labels.foldl_lookup (m : Labels) (q : String) :
    ∀ init, m.foldl (fun acc e => if e.1 = q then some e.2 else acc) init
      = (Labels.lookup m q).or init := by
  induction m with
  | nil => intro init; simp [Labels.lookup]
  | cons e m ih =>
      intro init
      show m.foldl _ (if e.1 = q then some e.2 else init) = _
      rw [ih]
      have hcons : Labels.lookup (e :: m) q
          = (Labels.lookup m q).or (if e.1 = q then some e.2 else none) := by
        show m.foldl _ (if e.1 = q then some e.2 else none) = _
        rw [ih]
      rw [hcons]
      cases hm : Labels.lookup m q <;> split <;> simp

theorem Labels.lookup_append (m₁ m₂ : Labels) (q : String) :
    Labels.lookup (m₁ ++ m₂) q = (Labels.lookup m₂ q).or (Labels.lookup m₁ q) := by
  unfold Labels.lookup
  rw [List.foldl_append]
  exact Labels.foldl_lookup m₂ q _

theorem Labels.lookup_set (m : Labels) (k : String) (v : Label) (q : String) :
    Labels.lookup (Labels.set m k v) q = if q = k then some v else Labels.lookup m q := by
  unfold Labels.set
  rw [Labels.lookup_append]
  have h1 : Labels.lookup [(k, v)] q = if k = q then some v else none := rfl
  rw [h1]
  rcases eq_or_ne q k with rfl | hne
  · simp
  · rw [if_neg (Ne.symm hne), if_neg hne, Option.none_or]

theorem Labels.lookup_setFoldl (ls : List Label) (m : Labels) (q : String)
    (h : ∀ l ∈ ls, l.key ≠ q) :
    Labels.lookup (ls.foldl (fun acc lbl => Labels.set acc lbl.key lbl) m) q
      = Labels.lookup m q := by
  induction ls generalizing m with
  | nil => rfl
  | cons x xs ih =>
      show Labels.lookup (xs.foldl _ (Labels.set m x.key x)) q = _
      rw [ih _ (fun l hl => h l (by simp [hl])), Labels.lookup_set,
        if_neg (fun he => h x (by simp) he.symm)]

theorem Labels.lookup_labelWrites_none {ls : List Label} {q : String}
    (h : ∀ l ∈ ls, l.key ≠ q) : Labels.lookup (labelWrites ls) q = none := by
  induction ls with
  | nil => rfl
  | cons x xs ih =>
      have : labelWrites (x :: xs) = [(x.key, x)] ++ labelWrites xs := rfl
      rw [this, Labels.lookup_append, ih (fun l hl => h l (by simp [hl]))]
      have h1 : Labels.lookup [(x.key, x)] q = if x.key = q then some x else none := rfl
      rw [h1, if_neg (h x (by simp))]
      rfl

theorem Labels.lookup_labelWrites {ls : List Label} (hnd : (ls.map Label.key).Nodup)
    {l : Label} (hl : l ∈ ls) : Labels.lookup (labelWrites ls) l.key = some l := by
  induction ls with
  | nil => cases hl
  | cons x xs ih =>
      have hw : labelWrites (x :: xs) = [(x.key, x)] ++ labelWrites xs := rfl
      rw [hw, Labels.lookup_append]
      rcases List.mem_cons.1 hl with rfl | hmem
      · have hnone : Labels.lookup (labelWrites xs) l.key = none :=
          Labels.lookup_labelWrites_none (fun l' hl' he =>
            (List.nodup_cons.1 (List.map_cons Label.key l xs ▸ hnd)).1
              (he ▸ List.mem_map.2 ⟨l', hl', rfl⟩))
        rw [hnone, Option.none_or]
        show (if l.key = l.key then some l else none) = some l
        rw [if_pos rfl]
      · rw [ih (by simp only [List.map_cons, List.nodup_cons] at hnd; exact hnd.2) hmem,
          Option.or_some]

/-! ### Cache lemmas -/

theorem Cache.lookup_empty (k : Pfx) : Cache.lookup [] k = none := rfl

theorem Cache.get_of_lookup_none {c : Cache} {k : Pfx} (h : Cache.lookup c k = none) :
    Cache.get c k = (none, c) := by
  unfold Cache.lookup at h
  rw [Option.map_eq_none'] at h
  unfold Cache.get
  rw [h]

theorem Cache.add_of_lookup_none {c : Cache} {k : Pfx} (h : Cache.lookup c k = none)
    (hlen : c.length + 1 ≤ cidrLabelsCacheMaxSize) (v : List Label) :
    Cache.add c k v = (k, v) :: c := by
  unfold Cache.lookup at h
  rw [Option.map_eq_none'] at h
  unfold Cache.add
  rw [List.eraseP_of_forall_not (List.find?_eq_none.1 h)]
  exact List.take_of_length_le (by simpa using hlen)

/-! ### The chain produced by a hit-free run of the enumerator -/

theorem chainFrom_length (addr : Addr) (ones i : Nat) :
    (chainFrom addr ones i).length = ones + 1 - i := by
  simp [chainFrom]

theorem chainFrom_cons {addr : Addr} {ones i : Nat} (h : i ≤ ones) :
    chainFrom addr ones i = chainLabel addr i :: chainFrom addr ones (i + 1) := by
  unfold chainFrom
  have h1 : ones + 1 - i = (ones + 1 - (i + 1)) + 1 := by omega
  rw [h1, List.range'_succ, List.map_cons]

theorem chainFrom_nil {addr : Addr} {ones i : Nat} (h : ones < i) :
    chainFrom addr ones i = [] := by
  unfold chainFrom
  rw [show ones + 1 - i = 0 by omega]
  rfl

theorem computeCIDRLabels_char (addr : Addr) (ones : Nat) :
    ∀ k i c lbls results, ones + 1 - i = k →
      results.length = i →
      (∀ j, i ≤ j → j ≤ ones → Cache.lookup c ⟨addr, j⟩ = none) →
      c.length + (ones + 1 - i) ≤ cidrLabelsCacheMaxSize →
      computeCIDRLabels c lbls results addr ones i =
        ((List.range' i (ones + 1 - i)).map (fun j => (⟨addr, j⟩, chainFrom addr ones j)) ++ c,
          lbls ++ labelWrites (chainFrom addr ones i),
          results ++ chainFrom addr ones i) := by
  intro k
  induction k with
  | zero =>
      intro i c lbls results hk hlen hfree hsize
      have hi : i > ones := by omega
      rw [computeCIDRLabels, dif_pos hi, hk]
      rw [chainFrom_nil hi]
      simp [labelWrites]
  | succ k ih =>
      intro i c lbls results hk hlen hfree hsize
      have hi : i ≤ ones := by omega
      rw [computeCIDRLabels, dif_neg (by omega)]
      dsimp only
      rw [Cache.get_of_lookup_none (hfree i le_rfl hi)]
      have hpl : maskedIPToLabel (Pfx.masked ⟨addr, i⟩).addr i = chainLabel addr i := rfl
      dsimp only
      rw [hpl]
      rw [ih (i + 1) c (Labels.set lbls (chainLabel addr i).key (chainLabel addr i))
        (results ++ [chainLabel addr i]) (by omega) (by simp [hlen])
        (fun j hj1 hj2 => hfree j (by omega) hj2) (by omega)]
      dsimp only
      have hres : results ++ [chainLabel addr i] ++ chainFrom addr ones (i + 1)
          = results ++ chainFrom addr ones i := by
        rw [List.append_assoc, List.singleton_append, ← chainFrom_cons hi]
      have hlbl : Labels.set lbls (chainLabel addr i).key (chainLabel addr i)
            ++ labelWrites (chainFrom addr ones (i + 1))
          = lbls ++ labelWrites (chainFrom addr ones i) := by
        unfold Labels.set
        rw [List.append_assoc, chainFrom_cons hi]
        rfl
      have hdrop : (results ++ chainFrom addr ones i).drop i = chainFrom addr ones i := by
        rw [← hlen]
        exact List.drop_left results _
      rw [hres, hlbl, hdrop]
      have hlooknew : Cache.lookup
          ((List.range' (i + 1) (ones + 1 - (i + 1))).map
            (fun j => (⟨addr, j⟩, chainFrom addr ones j)) ++ c) ⟨addr, i⟩ = none := by
        unfold Cache.lookup
        rw [Option.map_eq_none', List.find?_append]
        have h1 : List.find? (fun e : Pfx × List Label => decide (e.1 = (⟨addr, i⟩ : Pfx)))
            ((List.range' (i + 1) (ones + 1 - (i + 1))).map
              (fun j => ((⟨addr, j⟩ : Pfx), chainFrom addr ones j))) = none := by
          rw [List.find?_eq_none]
          intro e he
          simp only [List.mem_map] at he
          obtain ⟨j, hj, rfl⟩ := he
          have : i + 1 ≤ j := by
            rcases List.mem_range'.1 hj with ⟨t, _, rfl⟩
            omega
          simp only [decide_eq_true_eq]
          intro hcon
          have : j = i := congrArg Pfx.bits hcon
          omega
        have h2 := hfree i le_rfl hi
        unfold Cache.lookup at h2
        rw [Option.map_eq_none'] at h2
        rw [h1, h2]
        rfl
      rw [Cache.add_of_lookup_none hlooknew
        (by
          simp only [List.length_append, List.length_map, List.length_range']
          omega) (chainFrom addr ones i)]
      rw [show ones + 1 - i = (ones + 1 - (i + 1)) + 1 by omega, List.range'_succ,
        List.map_cons, List.cons_append]

theorem GetCIDRLabels_zero {ds : Bool} {c : Cache} {p : Pfx} (h : p.bits = 0) :
    GetCIDRLabels ds c p = (c, addWorldLabel ds p.addr []) := by
  unfold GetCIDRLabels
  rw [if_pos h]

theorem GetCIDRLabels_char (ds : Bool) (c : Cache) (p : Pfx) (hn : p.bits ≠ 0)
    (hfree : ∀ j, j ≤ p.bits → Cache.lookup c ⟨p.addr, j⟩ = none)
    (hsize : c.length + (p.bits + 1) ≤ cidrLabelsCacheMaxSize) :
    GetCIDRLabels ds c p =
      ((List.range' 0 (p.bits + 1)).map (fun j => (⟨p.addr, j⟩, chainFrom p.addr p.bits j)) ++ c,
        addWorldLabel ds p.addr (labelWrites (chainFrom p.addr p.bits 0))) := by
  unfold GetCIDRLabels
  rw [if_neg hn]
  dsimp only
  rw [computeCIDRLabels_char p.addr p.bits (p.bits + 1) 0 c [] [] (by omega) rfl
    (fun j _ h2 => hfree j h2) (by simpa using hsize)]
  dsimp only
  rw [List.nil_append, Nat.sub_zero]

theorem addWorldLabel_eq (ds : Bool) (a : Addr) (m : Labels) :
    addWorldLabel ds a m = Labels.set m (worldLabelFor ds a).key (worldLabelFor ds a) := by
  unfold addWorldLabel worldLabelFor
  split
  · rfl
  · split <;> rfl

theorem worldLabelFor_key_no_slash (ds : Bool) (a : Addr) :
    '/' ∉ (worldLabelFor ds a).key.data := by
  unfold worldLabelFor
  split
  · decide
  · split <;> decide

theorem worldLabelFor_source (ds : Bool) (a : Addr) :
    (worldLabelFor ds a).source = LabelSourceReserved := by
  unfold worldLabelFor
  split
  · rfl
  · split <;> rfl

theorem chainFrom_keys_nodup (addr : Addr) (ones i : Nat) :
    ((chainFrom addr ones i).map Label.key).Nodup := by
  unfold chainFrom
  rw [List.map_map]
  exact List.Nodup.map (fun x y h => maskedIPToLabel_key_inj h) (List.nodup_range' ..)

theorem chainLabel_mem_chainFrom {addr : Addr} {ones i : Nat} (h : i ≤ ones) :
    chainLabel addr i ∈ chainFrom addr ones 0 := by
  unfold chainFrom
  exact List.mem_map.2 ⟨i, List.mem_range'.2 ⟨i, by omega, by omega⟩, rfl⟩

theorem chainFrom_key_has_slash {addr : Addr} {ones i : Nat} {l : Label}
    (h : l ∈ chainFrom addr ones i) : '/' ∈ l.key.data := by
  unfold chainFrom at h
  rcases List.mem_map.1 h with ⟨j, _, rfl⟩
  exact slash_mem_key _ _

theorem Cache.get_none {c c' : Cache} {k : Pfx}
    (h : Cache.get c k = (none, c')) : c' = c := by
  unfold Cache.get at h
  cases hf : c.find? (fun e => decide (e.1 = k)) with
  | none =>
      rw [hf] at h
      exact (Prod.mk.injEq .. ▸ h).2.symm
  | some e =>
      rw [hf] at h
      exact absurd (Prod.mk.injEq .. ▸ h).1 (by simp)

theorem Cache.get_some {c c' : Cache} {k : Pfx} {v : List Label}
    (h : Cache.get c k = (some v, c')) : ∃ e ∈ c, e.2 = v := by
  unfold Cache.get at h
  cases hf : c.find? (fun e => decide (e.1 = k)) with
  | none =>
      rw [hf] at h
      exact absurd (Prod.mk.injEq .. ▸ h).1 (by simp)
  | some e =>
      rw [hf] at h
      exact ⟨e, List.mem_of_find?_eq_some hf, Option.some.inj (Prod.mk.injEq .. ▸ h).1⟩

theorem computeCIDRLabels_lookup_no_slash {q : String} (hq : '/' ∉ q.data) :
    ∀ k i c lbls results addr ones, ones + 1 - i = k → CacheInv c →
      Labels.lookup (computeCIDRLabels c lbls results addr ones i).2.1 q
        = Labels.lookup lbls q := by
  intro k
  induction k with
  | zero =>
      intro i c lbls results addr ones hk _
      rw [computeCIDRLabels, dif_pos (by omega)]
  | succ k ih =>
      intro i c lbls results addr ones hk hinv
      rw [computeCIDRLabels, dif_neg (by omega)]
      dsimp only
      rcases hg : Cache.get c ⟨addr, i⟩ with ⟨copt, c'⟩
      cases copt with
      | some cached =>
          dsimp only
          have hkeys : ∀ l ∈ cached, l.key ≠ q := by
            obtain ⟨e, he, rfl⟩ := Cache.get_some hg
            intro l hl heq
            exact hq (heq ▸ hinv e he l hl)
          split
          · exact Labels.lookup_setFoldl cached lbls q hkeys
          · exact Labels.lookup_setFoldl cached lbls q hkeys
      | none =>
          dsimp only
          have hc' : CacheInv c' := by
            rw [Cache.get_none hg]
            exact hinv
          rw [ih (i + 1) c' _ _ addr ones (by omega) hc']
          rw [Labels.lookup_set, if_neg (fun he => hq (by rw [he]; exact slash_mem_key _ _))]

/-! ### Hyphen guards -/

theorem maskedIPToLabel_key_head (ip : Addr) (pfx : Nat) :
    (maskedIPToLabel ip pfx).key.data.head? ≠ some '-' := by
  rw [maskedIPToLabel_key_data]
  unfold stemOf
  rcases hnc : noColonChars ip with _ | ⟨c, rest⟩
  · simp
  · by_cases h1 : (c :: rest).head? = some '-'
    · rw [if_pos h1]
      simp
    · rw [if_neg h1]
      simp only [List.head?_cons, Option.some.injEq] at h1
      simp [h1]

theorem maskedIPToLabel_key_last (ip : Addr) (pfx : Nat) :
    (maskedIPToLabel ip pfx).key.data.getLast? ≠ some '-' := by
  rw [maskedIPToLabel_key_data]
  obtain ⟨d, hd, hlo, hhi⟩ := itoa_getLast_digit pfx
  have h1 : stemOf ip ++ '/' :: (itoa pfx).data = (stemOf ip ++ ['/']) ++ (itoa pfx).data := by
    simp
  rw [h1, List.getLast?_append, hd, Option.or_some]
  intro hc
  have hdc : d = '-' := Option.some.inj hc
  subst hdc
  rw [show ('-' : Char).toNat = 45 from rfl] at hlo
  omega

/-! ### The label set produced by an expansion -/

theorem GetCIDRLabels_snd_pos {ds : Bool} {c : Cache} {p : Pfx} (h : p.bits ≠ 0) :
    (GetCIDRLabels ds c p).2
      = addWorldLabel ds p.addr (computeCIDRLabels c [] [] p.addr p.bits 0).2.1 := by
  unfold GetCIDRLabels
  rw [if_neg h]

theorem keyCard_chain_world (ds : Bool) (a : Addr) (ones : Nat) :
    Labels.keyCard (addWorldLabel ds a (labelWrites (chainFrom a ones 0))) = ones + 2 := by
  rw [addWorldLabel_eq]
  unfold Labels.keyCard Labels.set labelWrites
  simp only [List.map_append, List.map_map]
  have hcomp : (Prod.fst ∘ fun l : Label => (l.key, l)) = Label.key := rfl
  rw [hcomp]
  have hmapone : List.map Prod.fst [((worldLabelFor ds a).key, worldLabelFor ds a)]
      = [(worldLabelFor ds a).key] := rfl
  rw [hmapone, List.toFinset_card_of_nodup]
  · rw [List.length_append, List.length_map, chainFrom_length]
    simp
  · rw [List.nodup_append]
    refine ⟨chainFrom_keys_nodup a ones 0, List.nodup_singleton _, ?_⟩
    intro x hx hx2
    rcases List.mem_map.1 hx with ⟨l, hl, rfl⟩
    have hx2' : l.key = (worldLabelFor ds a).key := by simpa using hx2
    exact worldLabelFor_key_no_slash ds a (hx2' ▸ chainFrom_key_has_slash hl)

theorem lookup_chain_world (ds : Bool) (a : Addr) {ones i : Nat} (hi : i ≤ ones) :
    Labels.lookup (addWorldLabel ds a (labelWrites (chainFrom a ones 0))) (chainLabel a i).key
      = some (chainLabel a i) := by
  rw [addWorldLabel_eq, Labels.lookup_set,
    if_neg (fun he => worldLabelFor_key_no_slash ds a (by rw [← he]; exact slash_mem_key _ _))]
  exact Labels.lookup_labelWrites (chainFrom_keys_nodup a ones 0) (chainLabel_mem_chainFrom hi)

/-! ### Claim theorems -/

/-- Claim C1: for a prefix of mask length n, `GetCIDRLabels` (run against
a cache with no entry for the prefix's address chain — in particular the
initial empty cache — and with room for the new entries) returns a label
set with exactly n + 2 distinct keys when n > 0 (the n + 1 chain labels
plus one world label), and exactly 1 key (the world label alone) when
n = 0. -/
theorem getCIDRLabels_key_count (ds : Bool) (c : Cache) (p : Pfx)
    (hfree : ∀ j, j ≤ p.bits → Cache.lookup c ⟨p.addr, j⟩ = none)
    (hsize : c.length + (p.bits + 1) ≤ cidrLabelsCacheMaxSize) :
    Labels.keyCard (GetCIDRLabels ds c p).2 = if p.bits = 0 then 1 else p.bits + 2 := by
  by_cases h0 : p.bits = 0
  · rw [if_pos h0, GetCIDRLabels_zero h0]
    dsimp only
    rw [addWorldLabel_eq]
    unfold Labels.keyCard Labels.set
    simp
  · rw [if_neg h0, GetCIDRLabels_char ds c p h0 hfree hsize]
    exact keyCard_chain_world ds p.addr p.bits

/-- Witness for C1 at the prefix 10.0.0.0/8 against the empty cache: ten
distinct keys (the spec's scenario S5). -/
theorem getCIDRLabels_key_count_witness :
    Labels.keyCard (GetCIDRLabels false [] ⟨⟨IPFamily.v4, 167772160⟩, 8⟩).2 = 10 :=
  getCIDRLabels_key_count false [] ⟨⟨IPFamily.v4, 167772160⟩, 8⟩
    (fun _ _ => rfl) (by decide)

/-- Claim C2, amended to mask lengths n ≥ 1: for every 0 ≤ i ≤ n the
expanded label set maps the key of `maskedIPToLabel (mask addr i) i` (the
original address masked down to length i) to exactly that label.  For
n = 0 the claim fails: only the world label is produced. -/
theorem getCIDRLabels_chain_mem (ds : Bool) (c : Cache) (p : Pfx) (i : Nat)
    (hn : p.bits ≠ 0) (hi : i ≤ p.bits)
    (hfree : ∀ j, j ≤ p.bits → Cache.lookup c ⟨p.addr, j⟩ = none)
    (hsize : c.length + (p.bits + 1) ≤ cidrLabelsCacheMaxSize) :
    Labels.lookup (GetCIDRLabels ds c p).2 (maskedIPToLabel (p.addr.mask i) i).key
      = some (maskedIPToLabel (p.addr.mask i) i) := by
  rw [GetCIDRLabels_char ds c p hn hfree hsize]
  exact lookup_chain_world ds p.addr hi

/-- Counterexample to C2 as stated: at mask length n = 0 (prefix
0.0.0.0/0) the expansion contains no label at key "0.0.0.0/0"; the label
of the address masked to length 0 is absent. -/
theorem getCIDRLabels_chain_mem_cex :
    Labels.lookup (GetCIDRLabels false [] ⟨⟨IPFamily.v4, 0⟩, 0⟩).2
      (maskedIPToLabel (Addr.mask ⟨IPFamily.v4, 0⟩ 0) 0).key = none := by
  decide

/-- Witness for the amended C2 at 10.0.0.0/8, i = 8. -/
theorem getCIDRLabels_chain_mem_witness :
    Labels.lookup (GetCIDRLabels false [] ⟨⟨IPFamily.v4, 167772160⟩, 8⟩).2
      (maskedIPToLabel (Addr.mask ⟨IPFamily.v4, 167772160⟩ 8) 8).key
      = some (maskedIPToLabel (Addr.mask ⟨IPFamily.v4, 167772160⟩ 8) 8) :=
  getCIDRLabels_chain_mem false [] ⟨⟨IPFamily.v4, 167772160⟩, 8⟩ 8
    (by decide) (by decide) (fun _ _ => rfl) (by decide)

/-- Claim C3: every cache entry inserted by an expansion (the entries of
the final cache that were not already present) keyed by a prefix of
length i stores exactly n − i + 1 labels (n the expanded mask length),
the first being the label of that length-i prefix. -/
theorem getCIDRLabels_cache_entry (ds : Bool) (c : Cache) (p : Pfx)
    (hfree : ∀ j, j ≤ p.bits → Cache.lookup c ⟨p.addr, j⟩ = none)
    (hsize : c.length + (p.bits + 1) ≤ cidrLabelsCacheMaxSize) :
    ∀ e ∈ (GetCIDRLabels ds c p).1, e ∉ c →
      e.2.length = p.bits - e.1.bits + 1 ∧
        e.2.head? = some (maskedIPToLabel (e.1.addr.mask e.1.bits) e.1.bits) := by
  intro e he hnotc
  by_cases h0 : p.bits = 0
  · rw [GetCIDRLabels_zero h0] at he
    exact absurd he hnotc
  · rw [GetCIDRLabels_char ds c p h0 hfree hsize] at he
    rcases List.mem_append.1 he with he | he
    · rcases List.mem_map.1 he with ⟨j, hj, rfl⟩
      have hjle : j ≤ p.bits := by
        rcases List.mem_range'.1 hj with ⟨t, ht, rfl⟩
        omega
      refine ⟨?_, ?_⟩
      · rw [chainFrom_length]
        dsimp only
        omega
      · rw [chainFrom_cons hjle]
        rfl
    · exact absurd he hnotc

/-- Witness for C3: expanding 0.0.0.0/1 from the empty cache inserts the
entry keyed (0.0.0.0, 0) holding the two labels of lengths 0 and 1,
headed by the /0 label. -/
theorem getCIDRLabels_cache_entry_witness :
    (chainFrom ⟨IPFamily.v4, 0⟩ 1 0).length = 1 - 0 + 1 ∧
      (chainFrom ⟨IPFamily.v4, 0⟩ 1 0).head?
        = some (maskedIPToLabel (Addr.mask ⟨IPFamily.v4, 0⟩ 0) 0) :=
  getCIDRLabels_cache_entry false [] ⟨⟨IPFamily.v4, 0⟩, 1⟩ (fun _ _ => rfl) (by decide)
    (⟨⟨IPFamily.v4, 0⟩, 0⟩, chainFrom ⟨IPFamily.v4, 0⟩ 1 0)
    (by
      rw [GetCIDRLabels_char false [] ⟨⟨IPFamily.v4, 0⟩, 1⟩ (by decide) (fun _ _ => rfl)
        (by decide)]
      decide)
    (by decide)

/-- Claim C4, amended: the cache keys inserted by an expansion of prefix
p are `PrefixFrom(p.addr, i)` for the ORIGINAL (unmasked) address and
lengths i ≤ p.bits; contrary to the claim as stated, the key address is
not masked down to the key's length. -/
theorem getCIDRLabels_cache_keys (ds : Bool) (c : Cache) (p : Pfx)
    (hfree : ∀ j, j ≤ p.bits → Cache.lookup c ⟨p.addr, j⟩ = none)
    (hsize : c.length + (p.bits + 1) ≤ cidrLabelsCacheMaxSize) :
    ∀ e ∈ (GetCIDRLabels ds c p).1, e ∉ c →
      e.1.addr = p.addr ∧ e.1.bits ≤ p.bits := by
  intro e he hnotc
  by_cases h0 : p.bits = 0
  · rw [GetCIDRLabels_zero h0] at he
    exact absurd he hnotc
  · rw [GetCIDRLabels_char ds c p h0 hfree hsize] at he
    rcases List.mem_append.1 he with he | he
    · rcases List.mem_map.1 he with ⟨j, hj, rfl⟩
      refine ⟨rfl, ?_⟩
      dsimp only
      rcases List.mem_range'.1 hj with ⟨t, ht, rfl⟩
      omega
    · exact absurd he hnotc

/-- Counterexample to C4 as stated: expanding 128.0.0.0/1 from the empty
cache inserts a cache entry keyed by the prefix (128.0.0.0, 0) whose
address is NOT the original address masked to the key length 0 (which
would be 0.0.0.0) — the stored key is unmasked. -/
theorem getCIDRLabels_cache_keys_cex :
    (Cache.lookup (GetCIDRLabels false [] ⟨⟨IPFamily.v4, 2147483648⟩, 1⟩).1
        ⟨⟨IPFamily.v4, 2147483648⟩, 0⟩).isSome = true ∧
      Addr.mask ⟨IPFamily.v4, 2147483648⟩ 0 ≠ ⟨IPFamily.v4, 2147483648⟩ := by
  constructor
  · rw [GetCIDRLabels_char false [] ⟨⟨IPFamily.v4, 2147483648⟩, 1⟩ (by decide)
      (fun _ _ => rfl) (by decide)]
    decide
  · decide

/-- Witness for the amended C4: the same expansion of 128.0.0.0/1; the
inserted entry keyed (128.0.0.0, 0) carries the original address and a
length at most 1. -/
theorem getCIDRLabels_cache_keys_witness :
    (⟨⟨IPFamily.v4, 2147483648⟩, 0⟩ : Pfx).addr
        = (⟨⟨IPFamily.v4, 2147483648⟩, 1⟩ : Pfx).addr ∧
      (⟨⟨IPFamily.v4, 2147483648⟩, 0⟩ : Pfx).bits
        ≤ (⟨⟨IPFamily.v4, 2147483648⟩, 1⟩ : Pfx).bits :=
  getCIDRLabels_cache_keys false [] ⟨⟨IPFamily.v4, 2147483648⟩, 1⟩ (fun _ _ => rfl) (by decide)
    (⟨⟨IPFamily.v4, 2147483648⟩, 0⟩, chainFrom ⟨IPFamily.v4, 2147483648⟩ 1 0)
    (by
      rw [GetCIDRLabels_char false [] ⟨⟨IPFamily.v4, 2147483648⟩, 1⟩ (by decide)
        (fun _ _ => rfl) (by decide)]
      decide)
    (by decide)

/-- Claim C5 fails on the code (code bug): the label set returned by
`GetCIDRLabels` depends on the cache state left by earlier expansions.
After expanding 0.0.0.0/1, the cache holds the entry
(0.0.0.0, 0) ↦ [label "0.0.0.0/0", label "0.0.0.0/1"], computed for
target length 1; a subsequent expansion of 0.0.0.0/2 hits that entry at
recursion depth 0, stops recursing, and returns a set that MISSES the
queried CIDR's own label "0.0.0.0/2" — while the same call against the
empty cache contains it.  This contradicts the documentation of
`GetCIDRLabels` ("a set of labels representing the cidr itself and all
broader CIDRs", cidr.go:78-79) and the cache comment (cidr.go:125). -/
theorem getCIDRLabels_cache_interference :
    Labels.lookup
        (GetCIDRLabels false (GetCIDRLabels false [] ⟨⟨IPFamily.v4, 0⟩, 1⟩).1
          ⟨⟨IPFamily.v4, 0⟩, 2⟩).2
        (maskedIPToLabel (Addr.mask ⟨IPFamily.v4, 0⟩ 2) 2).key = none ∧
      Labels.lookup (GetCIDRLabels false [] ⟨⟨IPFamily.v4, 0⟩, 2⟩).2
          (maskedIPToLabel (Addr.mask ⟨IPFamily.v4, 0⟩ 2) 2).key
        = some (maskedIPToLabel (Addr.mask ⟨IPFamily.v4, 0⟩ 2) 2) := by
  constructor
  · rw [GetCIDRLabels_char false [] ⟨⟨IPFamily.v4, 0⟩, 1⟩ (by decide) (fun _ _ => rfl)
      (by decide)]
    unfold GetCIDRLabels
    rw [if_neg (by decide)]
    dsimp only
    rw [computeCIDRLabels, dif_neg (by decide)]
    dsimp only
    decide
  · rw [GetCIDRLabels_char false [] ⟨⟨IPFamily.v4, 0⟩, 2⟩ (by decide) (fun _ _ => rfl)
      (by decide)]
    decide

/-- Claim C6: every expansion inserts exactly one world label, with
source `reserved`: key "world" when dual-stack is off, else "world-ipv4"
for an IPv4 address and "world-ipv6" otherwise; the other two world keys
are absent.  The cache may hold any state satisfying the reachable-state
invariant `CacheInv` (all cached labels are '/'-keyed chain labels). -/
theorem getCIDRLabels_world (ds : Bool) (c : Cache) (p : Pfx) (hinv : CacheInv c) :
    Labels.lookup (GetCIDRLabels ds c p).2 (worldLabelFor ds p.addr).key
        = some (worldLabelFor ds p.addr) ∧
      (worldLabelFor ds p.addr).source = LabelSourceReserved ∧
      ∀ k, (k = IDNameWorld ∨ k = IDNameWorldIPv4 ∨ k = IDNameWorldIPv6) →
        k ≠ (worldLabelFor ds p.addr).key →
        Labels.lookup (GetCIDRLabels ds c p).2 k = none := by
  have hlk : ∀ q : String, '/' ∉ q.data →
      Labels.lookup (GetCIDRLabels ds c p).2 q
        = if q = (worldLabelFor ds p.addr).key then some (worldLabelFor ds p.addr)
          else none := by
    intro q hq
    by_cases h0 : p.bits = 0
    · rw [GetCIDRLabels_zero h0]
      dsimp only
      rw [addWorldLabel_eq, Labels.lookup_set]
      split <;> rfl
    · rw [GetCIDRLabels_snd_pos h0, addWorldLabel_eq, Labels.lookup_set,
        computeCIDRLabels_lookup_no_slash hq (p.bits + 1) 0 c [] [] p.addr p.bits
          (by omega) hinv]
      split <;> rfl
  refine ⟨?_, worldLabelFor_source ds p.addr, ?_⟩
  · rw [hlk _ (worldLabelFor_key_no_slash ds p.addr), if_pos rfl]
  · intro k hk hne
    have hks : '/' ∉ k.data := by
      rcases hk with rfl | rfl | rfl <;> decide
    rw [hlk k hks, if_neg hne]

/-- Witness for C6: dual-stack on, IPv6 prefix ::1/128 against the empty
cache — the inserted world label is `world-ipv6` and `world-ipv4` is
absent. -/
theorem getCIDRLabels_world_witness :
    Labels.lookup (GetCIDRLabels true [] ⟨⟨IPFamily.v6, 1⟩, 128⟩).2
        (worldLabelFor true ⟨IPFamily.v6, 1⟩).key
      = some (worldLabelFor true ⟨IPFamily.v6, 1⟩) ∧
    Labels.lookup (GetCIDRLabels true [] ⟨⟨IPFamily.v6, 1⟩, 128⟩).2 IDNameWorldIPv4
      = none :=
  ⟨(getCIDRLabels_world true [] ⟨⟨IPFamily.v6, 1⟩, 128⟩
      (fun e he => absurd he (List.not_mem_nil e))).1,
    (getCIDRLabels_world true [] ⟨⟨IPFamily.v6, 1⟩, 128⟩
      (fun e he => absurd he (List.not_mem_nil e))).2.2 IDNameWorldIPv4
      (Or.inr (Or.inl rfl)) (by decide)⟩

/-- Claim C9: no key produced by `maskedIPToLabel` starts or ends with
'-' — a '0' is prepended when the colon-rewritten address starts with
'-', a '0' is appended when it ends with '-' (the guards firing
independently), and the key always ends in the decimal mask length. -/
theorem maskedIPToLabel_no_hyphen (ip : Addr) (pfx : Nat) :
    (maskedIPToLabel ip pfx).key.data.head? ≠ some '-' ∧
      (maskedIPToLabel ip pfx).key.data.getLast? ≠ some '-' :=
  ⟨maskedIPToLabel_key_head ip pfx, maskedIPToLabel_key_last ip pfx⟩

/-- Claim C10: every chain-label key contains '/', none of the three
world keys does, and therefore inserting the world label never overwrites
an entry at a '/'-containing (chain) key. -/
theorem worldLabel_no_collision :
    (∀ a pfx, '/' ∈ (maskedIPToLabel a pfx).key.data) ∧
      ('/' ∉ IDNameWorld.data ∧ '/' ∉ IDNameWorldIPv4.data ∧ '/' ∉ IDNameWorldIPv6.data) ∧
      (∀ ds a lbls k, '/' ∈ k.data →
        Labels.lookup (addWorldLabel ds a lbls) k = Labels.lookup lbls k) := by
  refine ⟨fun a pfx => slash_mem_key a pfx, ⟨by decide, by decide, by decide⟩, ?_⟩
  intro ds a lbls k hk
  rw [addWorldLabel_eq, Labels.lookup_set,
    if_neg (fun he => worldLabelFor_key_no_slash ds a (by rw [← he]; exact hk))]

/-- Witness for C10 at the key "0.0.0.0/0": adding a world label leaves
the mapping at that key unchanged. -/
theorem worldLabel_no_collision_witness :
    ('/' ∈ ("0.0.0.0/0" : String).data) ∧
      Labels.lookup (addWorldLabel false ⟨IPFamily.v4, 0⟩ []) "0.0.0.0/0"
        = Labels.lookup [] "0.0.0.0/0" :=
  ⟨by decide, worldLabel_no_collision.2.2 false ⟨IPFamily.v4, 0⟩ [] "0.0.0.0/0" (by decide)⟩

/-- Claim C7: every string accepted by `IPStringToLabel` yields exactly
the codec label — a bare address (no '/') gives `maskedIPToLabel` at the
address's full bit length (a host prefix), an accepted address/length
form gives the label of the address masked to that length before
formatting; both carry source `cidr`. -/
theorem ipStringToLabel_ok (s : String) :
    (∀ a : Addr, s.data.contains '/' = false → parseAddr s = some a →
      IPStringToLabel s = .ok (maskedIPToLabel a a.bitLen) ∧
        (maskedIPToLabel a a.bitLen).source = LabelSourceCIDR) ∧
    (∀ q : Pfx, s.data.contains '/' = true → parsePfx s = some q →
      IPStringToLabel s = .ok (maskedIPToLabel (Pfx.masked q).addr q.bits) ∧
        (maskedIPToLabel (Pfx.masked q).addr q.bits).source = LabelSourceCIDR) := by
  constructor
  · intro a hs hp
    unfold IPStringToLabel
    rw [if_pos hs, hp]
    exact ⟨rfl, rfl⟩
  · intro q hs hp
    unfold IPStringToLabel
    rw [if_neg (by rw [hs]; decide), hp]
    exact ⟨rfl, rfl⟩

/-- Witness for C7 at the spec scenarios S1 and S2: "10.0.0.1" parses to
the host label with key "10.0.0.1/32" and "10.0.0.0/8" to the masked
label with key "10.0.0.0/8", both with source `cidr`. -/
theorem ipStringToLabel_ok_witness :
    IPStringToLabel "10.0.0.1"
        = .ok (maskedIPToLabel ⟨IPFamily.v4, 167772161⟩ (Addr.bitLen ⟨IPFamily.v4, 167772161⟩)) ∧
      (maskedIPToLabel ⟨IPFamily.v4, 167772161⟩ 32).key = "10.0.0.1/32" ∧
      IPStringToLabel "10.0.0.0/8"
        = .ok (maskedIPToLabel (Pfx.masked ⟨⟨IPFamily.v4, 167772160⟩, 8⟩).addr 8) ∧
      (maskedIPToLabel (Pfx.masked ⟨⟨IPFamily.v4, 167772160⟩, 8⟩).addr 8).key = "10.0.0.0/8" ∧
      (maskedIPToLabel (Pfx.masked ⟨⟨IPFamily.v4, 167772160⟩, 8⟩).addr 8).source = "cidr" :=
  ⟨((ipStringToLabel_ok "10.0.0.1").1 ⟨IPFamily.v4, 167772161⟩ (by decide) (by decide)).1,
    by decide,
    ((ipStringToLabel_ok "10.0.0.0/8").2 ⟨⟨IPFamily.v4, 167772160⟩, 8⟩ (by decide)
      (by decide)).1,
    by decide, by decide⟩

/-- Claim C8: `IPStringToLabel` fails with `NotAnAddress` (carrying the
offending input) exactly when the input has no '/' and is not a valid
address, fails with `NotACIDR` (carrying the offending input) exactly
when it has a '/' and is not a valid prefix, and succeeds on every other
input. -/
theorem ipStringToLabel_err (s : String) :
    (IPStringToLabel s = .error (.notAnAddress s)
        ↔ s.data.contains '/' = false ∧ parseAddr s = none) ∧
      (IPStringToLabel s = .error (.notACIDR s)
        ↔ s.data.contains '/' = true ∧ parsePfx s = none) ∧
      ((∃ l, IPStringToLabel s = .ok l)
        ↔ (s.data.contains '/' = false ∧ (parseAddr s).isSome = true)
          ∨ (s.data.contains '/' = true ∧ (parsePfx s).isSome = true)) := by
  unfold IPStringToLabel
  cases hs : s.data.contains '/' with
  | false =>
      rw [if_pos rfl]
      cases hp : parseAddr s <;> simp
  | true =>
      rw [if_neg (show ¬(true = false) by decide)]
      cases hp : parsePfx s <;> simp

/-- Scenario S3 of the spec: "foo" is rejected as not an address, with
the input carried in the error. -/
theorem ipStringToLabel_foo :
    IPStringToLabel "foo" = .error (.notAnAddress "foo") := rfl

/-- Scenario S4 of the spec: "10.0.0.0/40" is rejected as not a CIDR
(40 exceeds the IPv4 bit length), with the input carried in the error. -/
theorem ipStringToLabel_out_of_range :
    IPStringToLabel "10.0.0.0/40" = .error (.notACIDR "10.0.0.0/40") := rfl
